import Mathlib

/-!
Shallow embedding of `src/ChemCalc/Kinetic.py` (class `KineticalCalculator`)
and verification of its specification.

Modelling conventions:
* Python floats are modelled by `ℚ` (exact arithmetic).
* Rate-law exponents (`rate_dependency_by_reaction` entries) are modelled by
  `ℤ`: the source stores numbers used only through `**` and a sign test, and
  rational powers of possibly non-positive bases have no total computable
  meaning; integer exponents give Python's `**` semantics on every base the
  guard lets through.
* Python `**`, which raises `ZeroDivisionError` on `0.0 ** negative`, is
  modelled by `pyPow : ℚ → ℤ → Option ℚ` (`none` = raise); the guarded loop
  of the source is shown never to hit `none`, so the main development uses
  the total `foldSide`.
* The four parallel per-reaction tables cached by `fit` (`rate_constants`,
  `reaction_by_index`, `stoichiometric_coefficient_by_reaction`,
  `rate_dependency_by_reaction`), all indexed by `rxn_index`, are bundled
  into one `List Reaction`; the paired iteration of an index list with the
  `counter`-indexed stoichiometry/exponent list is modelled with `List.zip`
  (the documented alignment invariant makes the lists equal length).
* Exceptions of `calculate` (`NameError` when not fitted, `ValueError` for an
  unrecognized `concentration_below_zero`) are modelled with `Except`;
  `calculate` also returns the calculator state so that mutation made before
  a raise is observable.
* Plotting (`plot=True`) and the interactive loop are presentation-only and
  out of scope per the spec; the embedding models the `plot=False` path.
-/

namespace ChemCalc

/-- One reaction: the `rxn_index`-slice of the tables cached by `fit`.
`kf`/`kb` are `rate_constants[rxn_index][0]`/`[1]`; `reactantIndices` and
`productIndices` are `reaction_by_index[rxn_index][0]`/`[1]`; similarly for
the stoichiometric coefficients and the rate exponents. -/
structure Reaction where
  kf : ℚ
  kb : ℚ
  reactantIndices : List ℕ
  productIndices : List ℕ
  reactantStoich : List ℚ
  productStoich : List ℚ
  reactantExp : List ℤ
  productExp : List ℤ
deriving DecidableEq

/-- The `Enviroment` collaborator, as read by `fit`: the reaction tables, the
`concentration` field of each `compounds_concentration` entry, and the
display formulas. -/
structure Enviroment where
  reactions : List Reaction
  compounds_concentration : List ℚ
  compounds_unicode_formula : List String
deriving DecidableEq

/-- State of a `KineticalCalculator` object: `accuracy` and `fitted` are set
by `__init__`; the remaining fields are the state cached/copied by `fit`
(empty before a fit, matching that `calculate` never reads them unfitted). -/
structure KineticalCalculator where
  accuracy : ℚ
  fitted : Bool
  reactions : List Reaction
  concentrations : List ℚ
  compounds_unicode_formula : List String
deriving DecidableEq

/-- `KineticalCalculator.__init__`: store the accuracy, `fitted = False`. -/
def mkCalculator (accuracy : ℚ) : KineticalCalculator :=
  { accuracy := accuracy, fitted := false, reactions := [],
    concentrations := [], compounds_unicode_formula := [] }

/-- `fit`: cache the environment tables and copy its concentrations; set
`fitted = True`.  (The `type(enviroment) == Enviroment` check cannot fail in
the typed embedding.) -/
def fit (kc : KineticalCalculator) (env : Enviroment) : KineticalCalculator :=
  { accuracy := kc.accuracy, fitted := true, reactions := env.reactions,
    concentrations := env.compounds_concentration,
    compounds_unicode_formula := env.compounds_unicode_formula }

/-- Python `**` on a rational base and integer exponent: raises
(`none`) exactly on `0 ** negative`. -/
def pyPow (x : ℚ) (e : ℤ) : Option ℚ :=
  if x = 0 ∧ e < 0 then none else some (x ^ e)

/-- The guarded extent loop of `calculate_concentration_change`: starting
from `r` (initially `accuracy * rate_constant`), for each `(compound, dep)`
pair multiply `r` by `concentrations[compound] ** dep` unless the
concentration is `0` with `dep < 0`, in which case `r` is set to `0`. -/
def foldSide (concs : List ℚ) : List (ℕ × ℤ) → ℚ → ℚ
  | [], r => r
  | p :: rest, r =>
      if ¬(concs.getD p.1 0 = 0 ∧ p.2 < 0) then
        foldSide concs rest (r * concs.getD p.1 0 ^ p.2)
      else
        foldSide concs rest 0

/-- The same loop with Python's raising `**` (`pyPow`) kept explicit, to
state that the guard prevents every raise. -/
def foldSideChecked (concs : List ℚ) : List (ℕ × ℤ) → ℚ → Option ℚ
  | [], r => some r
  | p :: rest, r =>
      if ¬(concs.getD p.1 0 = 0 ∧ p.2 < 0) then
        match pyPow (concs.getD p.1 0) p.2 with
        | none => none
        | some v => foldSideChecked concs rest (r * v)
      else
        foldSideChecked concs rest 0

/-- The accumulation loop `concentration_change[i] += amt * coeff` over a
list of `(compound index, stoichiometric coefficient)` pairs. -/
def accumulate (change : List ℚ) (l : List (ℕ × ℚ)) (amt : ℚ) : List ℚ :=
  l.foldl (fun ch p => ch.set p.1 (ch.getD p.1 0 + amt * p.2)) change

/-- Body of the `for rxn_index in range(self.number_of_reactions)` loop:
compute the guarded forward extent `rf` (seeded with `accuracy * kf`) and
backward extent `rb` (seeded with `accuracy * kb`), then add
`(rb - rf) * coeff` at every reactant index and `(rf - rb) * coeff` at every
product index of the running delta vector. -/
def reactionStep (s : ℚ) (concs : List ℚ) (change : List ℚ) (r : Reaction) :
    List ℚ :=
  let rf := foldSide concs (r.reactantIndices.zip r.reactantExp) (s * r.kf)
  let rb := foldSide concs (r.productIndices.zip r.productExp) (s * r.kb)
  accumulate
    (accumulate change (r.reactantIndices.zip r.reactantStoich) (rb - rf))
    (r.productIndices.zip r.productStoich) (rf - rb)

/-- `calculate_concentration_change` (the inner function of `calculate`):
run `reactionStep` over all reactions, starting from the delta vector
`[0] * len(concentrations)`. -/
def calculate_concentration_change (s : ℚ) (rs : List Reaction)
    (concs : List ℚ) : List ℚ :=
  rs.foldl (reactionStep s concs) (List.replicate concs.length 0)

/-- The zero-guard test of one `(compound index, exponent)` factor, as a
`Bool`: base concentration exactly `0` and negative exponent. -/
def guardB (concs : List ℚ) (p : ℕ × ℤ) : Bool :=
  decide (concs.getD p.1 0 = 0) && decide (p.2 < 0)

/-- Spec-side forward extent (spec §4.2): `step_size × forward_rate_constant
× Π concentrations[reactant_indices[i]] ^ reactant_rate_exponents[i]`, the
whole product forced to `0` when some factor has base `0` and negative
exponent. -/
def forwardExtent (s : ℚ) (concs : List ℚ) (r : Reaction) : ℚ :=
  if (r.reactantIndices.zip r.reactantExp).any (guardB concs) then 0
  else s * r.kf *
    ((r.reactantIndices.zip r.reactantExp).map
      (fun p => concs.getD p.1 0 ^ p.2)).prod

/-- Spec-side backward extent, analogous over the product side. -/
def backwardExtent (s : ℚ) (concs : List ℚ) (r : Reaction) : ℚ :=
  if (r.productIndices.zip r.productExp).any (guardB concs) then 0
  else s * r.kb *
    ((r.productIndices.zip r.productExp).map
      (fun p => concs.getD p.1 0 ^ p.2)).prod

/-- Spec-side net contribution of one reaction to compound `j` (spec §4.2):
`(backward − forward) ×` (sum of the reaction's reactant stoichiometric
coefficients paired with index `j`) `+ (forward − backward) ×` (same over
the product side). -/
def specContrib (s : ℚ) (concs : List ℚ) (j : ℕ) (r : Reaction) : ℚ :=
  (backwardExtent s concs r - forwardExtent s concs r) *
    (((r.reactantIndices.zip r.reactantStoich).filter
      (fun p => p.1 == j)).map Prod.snd).sum
  + (forwardExtent s concs r - backwardExtent s concs r) *
    (((r.productIndices.zip r.productStoich).filter
      (fun p => p.1 == j)).map Prod.snd).sum

/-- Spec-side delta at compound `j` (spec §4.2 net effect): contributions of
all reactions sharing the index are summed. -/
def specDelta (s : ℚ) (rs : List Reaction) (concs : List ℚ) (j : ℕ) : ℚ :=
  (rs.map (specContrib s concs j)).sum

/-- Errors of `calculate`: `notFitted` models the `NameError` raised when
`fit` was not called (`NotBoundError` of the spec), `invalidPolicy` the
`ValueError` raised for an unrecognized `concentration_below_zero`
(`InvalidArgument` of the spec). -/
inductive CalcError where
  | notFitted
  | invalidPolicy
deriving DecidableEq

/-- One entry of the returned `checkpoints` sequence: the initial header
`["time", compounds_unicode_formula]`, or a recorded `[time, concentrations]`
pair. -/
inductive Row where
  | header (tag : String) (labels : List String)
  | snap (t : ℚ) (concs : List ℚ)
deriving DecidableEq

/-- The per-compound update loop of one tick (`for j in range(len(delta))`):
`concentration = concentrations[j] + delta[j]`; keep it if positive, else
branch on the policy string, raising on an unrecognized one.  Returns the
concentration list as left at loop exit (entries before a raise are already
written, the raising entry and the rest are untouched) and whether the
`ValueError` was raised. -/
def applyDelta (policy : String) : List ℚ → List ℚ → List ℚ × Bool
  | c :: cs, d :: ds =>
      let concentration := c + d
      if concentration > 0 then
        let r := applyDelta policy cs ds
        (concentration :: r.1, r.2)
      else if policy = "DoNotChange" then
        let r := applyDelta policy cs ds
        (c :: r.1, r.2)
      else if policy = "GoNegetive" then
        let r := applyDelta policy cs ds
        (concentration :: r.1, r.2)
      else if policy = "SetToZero" then
        let r := applyDelta policy cs ds
        ((0 : ℚ) :: r.1, r.2)
      else
        (c :: cs, true)
  | cs, _ => (cs, false)

/-- The checkpoint recording of one tick: for each `checkpoint_t` in
`checkpoint_time` (in list order) with `t <= checkpoint_t < t + accuracy`,
append `[checkpoint_t, concentrations.copy()]`. -/
def recordedAt (cps : List ℚ) (s t : ℚ) (concs : List ℚ) : List Row :=
  (cps.filter (fun c => decide (t ≤ c) && decide (c < t + s))).map
    (fun c => Row.snap c concs)

/-- The bounded time-stepping loop of `calculate`, by remaining iteration
count: each iteration computes the delta, runs the per-compound update
(aborting the whole loop if it raised), records the bracketed checkpoints
with the updated concentrations, and advances `t` by the accuracy.  Returns
final concentrations, accumulated checkpoint rows, and the raised flag. -/
def loopRun (s : ℚ) (rs : List Reaction) (p : String) (cps : List ℚ) :
    ℕ → ℚ → List ℚ → List Row → List ℚ × List Row × Bool
  | 0, _, concs, rows => (concs, rows, false)
  | n + 1, t, concs, rows =>
      let delta := calculate_concentration_change s rs concs
      let r := applyDelta p concs delta
      if r.2 then (r.1, rows, true)
      else loopRun s rs p cps n (t + s) r.1 (rows ++ recordedAt cps s t r.1)

/-- Python `int()` applied to a rational: truncation toward zero. -/
def pyInt (q : ℚ) : ℤ :=
  if 0 ≤ q then ⌊q⌋ else ⌈q⌉

/-- `calculate(time, checkpoint_time, concentration_below_zero)` (the
`plot=False` path): raise `NameError` if not fitted; otherwise run the loop
`int(time/accuracy + 1)` times starting at `t = 0`, and on success return
the header row, the recorded checkpoint rows, and the final
`[time, concentrations]` pair.  The returned calculator carries the
concentration vector as the loop left it (also on a raise). -/
def calculate (kc : KineticalCalculator) (time : ℚ) (checkpoint_time : List ℚ)
    (concentration_below_zero : String) :
    KineticalCalculator × Except CalcError (List Row) :=
  if kc.fitted = false then (kc, Except.error CalcError.notFitted)
  else
    let n := (pyInt (time / kc.accuracy + 1)).toNat
    let r := loopRun kc.accuracy kc.reactions concentration_below_zero
      checkpoint_time n 0 kc.concentrations []
    if r.2.2 then
      ({ kc with concentrations := r.1 }, Except.error CalcError.invalidPolicy)
    else
      ({ kc with concentrations := r.1 },
        Except.ok (Row.header "time" kc.compounds_unicode_formula ::
          r.2.1 ++ [Row.snap time r.1]))

/-- The set of recognized `concentration_below_zero` values. -/
def recognizedPolicy (p : String) : Prop :=
  p = "SetToZero" ∨ p = "DoNotChange" ∨ p = "GoNegetive"

instance (p : String) : Decidable (recognizedPolicy p) := by
  unfold recognizedPolicy; infer_instance

/-- One full per-tick state update: the concentrations after applying the
per-compound update to the freshly computed delta. -/
def tick (s : ℚ) (rs : List Reaction) (p : String) (concs : List ℚ) :
    List ℚ :=
  (applyDelta p concs (calculate_concentration_change s rs concs)).1

/-- Spec-side shape of the checkpoint rows recorded by `n` iterations
starting at time `t`: one block per iteration, in iteration order, each
block listing the checkpoints bracketed by `[t, t + s)` in `checkpoint_time`
order, snapshotting the post-update concentrations of that iteration. -/
def recBlock (s : ℚ) (rs : List Reaction) (p : String) (cps : List ℚ) :
    ℕ → ℚ → List ℚ → List Row
  | 0, _, _ => []
  | n + 1, t, concs =>
      recordedAt cps s t (tick s rs p concs) ++
        recBlock s rs p cps n (t + s) (tick s rs p concs)

/-! ### Concrete objects used by witnesses and counterexamples -/

/-- A reversible reaction `2A ⇌ B` (compound indices `0` and `1`) with unit
rate constants and first-order rate laws. -/
def rxnW : Reaction :=
  { kf := 1, kb := 1, reactantIndices := [0], productIndices := [1],
    reactantStoich := [2], productStoich := [1],
    reactantExp := [1], productExp := [1] }

/-- A fitted calculator over one compound at concentration `1`, no
reactions, step size `1`. -/
def kcOne : KineticalCalculator :=
  { accuracy := 1, fitted := true, reactions := [], concentrations := [1],
    compounds_unicode_formula := ["A"] }

/-- A fitted calculator over one compound at concentration `-1`, no
reactions, step size `1`. -/
def kcNegOne : KineticalCalculator :=
  { accuracy := 1, fitted := true, reactions := [], concentrations := [-1],
    compounds_unicode_formula := ["A"] }

/-! ### Lemmas about the extent loop -/

theorem foldSide_nil (concs : List ℚ) (r : ℚ) : foldSide concs [] r = r :=
  rfl

theorem foldSide_cons (concs : List ℚ) (p : ℕ × ℤ) (rest : List (ℕ × ℤ))
    (r : ℚ) :
    foldSide concs (p :: rest) r =
      if ¬(concs.getD p.1 0 = 0 ∧ p.2 < 0) then
        foldSide concs rest (r * concs.getD p.1 0 ^ p.2)
      else foldSide concs rest 0 :=
  rfl

theorem guardB_eq_true (concs : List ℚ) (p : ℕ × ℤ) :
    guardB concs p = true ↔ concs.getD p.1 0 = 0 ∧ p.2 < 0 := by
  rw [guardB, Bool.and_eq_true, decide_eq_true_eq, decide_eq_true_eq]

theorem guardB_eq_false (concs : List ℚ) (p : ℕ × ℤ)
    (h : ¬(concs.getD p.1 0 = 0 ∧ p.2 < 0)) : guardB concs p = false := by
  rcases Decidable.not_and_iff_or_not.mp h with h1 | h1
  · rw [guardB, decide_eq_false h1, Bool.false_and]
  · rw [guardB, decide_eq_false h1, Bool.and_false]

/-- Closed form of the guarded extent loop: if some factor has base `0` and
negative exponent the loop yields `0`; otherwise it multiplies the seed by
the product of all the powers. -/
theorem foldSide_closed (concs : List ℚ) (l : List (ℕ × ℤ)) (r : ℚ) :
    foldSide concs l r =
      if l.any (guardB concs) then 0
      else r * (l.map (fun p => concs.getD p.1 0 ^ p.2)).prod := by
  induction l generalizing r with
  | nil =>
    rw [foldSide_nil, List.any_nil, List.map_nil, List.prod_nil, mul_one,
      if_neg]
    exact Bool.false_ne_true
  | cons p rest ih =>
    rw [foldSide_cons]
    by_cases hg : concs.getD p.1 0 = 0 ∧ p.2 < 0
    · rw [if_neg (not_not_intro hg), ih]
      have hany : (p :: rest).any (guardB concs) = true := by
        rw [List.any_cons, (guardB_eq_true concs p).mpr hg, Bool.true_or]
      rw [if_pos hany]
      split
      · rfl
      · exact zero_mul _
    · rw [if_pos hg, ih, List.any_cons, guardB_eq_false concs p hg,
        Bool.false_or, List.map_cons, List.prod_cons]
      split
      · rfl
      · rw [mul_assoc]

theorem foldSideChecked_nil (concs : List ℚ) (r : ℚ) :
    foldSideChecked concs [] r = some r :=
  rfl

theorem foldSideChecked_cons (concs : List ℚ) (p : ℕ × ℤ)
    (rest : List (ℕ × ℤ)) (r : ℚ) :
    foldSideChecked concs (p :: rest) r =
      if ¬(concs.getD p.1 0 = 0 ∧ p.2 < 0) then
        match pyPow (concs.getD p.1 0) p.2 with
        | none => none
        | some v => foldSideChecked concs rest (r * v)
      else foldSideChecked concs rest 0 :=
  rfl

/-- The checked extent loop never raises: the source's guard keeps the pair
`(0, negative)` away from `**`, so the loop always returns the value of the
total loop. -/
theorem foldSideChecked_eq (concs : List ℚ) (l : List (ℕ × ℤ)) (r : ℚ) :
    foldSideChecked concs l r = some (foldSide concs l r) := by
  induction l generalizing r with
  | nil => rfl
  | cons p rest ih =>
    rw [foldSideChecked_cons, foldSide_cons]
    by_cases hg : concs.getD p.1 0 = 0 ∧ p.2 < 0
    · rw [if_neg (not_not_intro hg), if_neg (not_not_intro hg)]
      exact ih 0
    · rw [if_pos hg, if_pos hg, pyPow, if_neg hg]
      exact ih _

/-- C2: for a reaction side containing a factor whose base concentration is
exactly `0` and whose rate exponent is negative, the extent loop (seeded as
in the source with `accuracy * rate_constant`, but for any seed) does not
raise — the Python `**`, modelled as the raising `pyPow`, is never applied
to `0 ** negative` — and the extent of that side is exactly `0`, whatever
the other factors, indices and seed are. -/
theorem zero_guard_extent (concs : List ℚ) (l : List (ℕ × ℤ)) (r : ℚ)
    (h : ∃ p ∈ l, concs.getD p.1 0 = 0 ∧ p.2 < 0) :
    foldSideChecked concs l r = some 0 := by
  rw [foldSideChecked_eq, foldSide_closed]
  obtain ⟨p, hp, hp2⟩ := h
  have hany : l.any (guardB concs) = true :=
    List.any_eq_true.mpr ⟨p, hp, (guardB_eq_true concs p).mpr hp2⟩
  rw [if_pos hany]

/-- Witness for C2 at a concrete input: one compound at concentration `0`
with exponent `-1` and seed `5`. -/
theorem zero_guard_extent_witness :
    foldSideChecked [0] [((0 : ℕ), (-1 : ℤ))] 5 = some 0 :=
  zero_guard_extent [0] [((0 : ℕ), (-1 : ℤ))] 5
    ⟨((0 : ℕ), (-1 : ℤ)), List.mem_singleton.mpr rfl, rfl, by norm_num⟩

/-! ### Lemmas about the accumulation loop and the delta computation -/

theorem accumulate_nil (change : List ℚ) (amt : ℚ) :
    accumulate change [] amt = change :=
  rfl

theorem accumulate_cons (change : List ℚ) (p : ℕ × ℚ) (l : List (ℕ × ℚ))
    (amt : ℚ) :
    accumulate change (p :: l) amt =
      accumulate (change.set p.1 (change.getD p.1 0 + amt * p.2)) l amt :=
  rfl

theorem accumulate_length (l : List (ℕ × ℚ)) (change : List ℚ) (amt : ℚ) :
    (accumulate change l amt).length = change.length := by
  induction l generalizing change with
  | nil => rfl
  | cons p l ih =>
    rw [accumulate_cons, ih, List.length_set]

theorem getD_set_self (l : List ℚ) (i : ℕ) (v : ℚ) (h : i < l.length) :
    (l.set i v).getD i 0 = v := by
  rw [List.getD_eq_getElem?_getD, List.getElem?_set_self]
  · rfl
  · exact h

theorem getD_set_ne (l : List ℚ) (i j : ℕ) (v : ℚ) (h : i ≠ j) :
    (l.set i v).getD j 0 = l.getD j 0 := by
  rw [List.getD_eq_getElem?_getD, List.getD_eq_getElem?_getD,
    List.getElem?_set_ne h]

/-- Entry `j` of the accumulation loop's result: the old entry plus `amt`
times the sum of the coefficients paired with index `j`. -/
theorem accumulate_getD (l : List (ℕ × ℚ)) (change : List ℚ) (amt : ℚ)
    (j : ℕ) (hj : j < change.length) (hl : ∀ p ∈ l, p.1 < change.length) :
    (accumulate change l amt).getD j 0 =
      change.getD j 0 +
        amt * ((l.filter (fun p => p.1 == j)).map Prod.snd).sum := by
  induction l generalizing change with
  | nil =>
    rw [accumulate_nil, List.filter_nil, List.map_nil, List.sum_nil,
      mul_zero, add_zero]
  | cons p l ih =>
    rw [accumulate_cons]
    have hlen : (change.set p.1 (change.getD p.1 0 + amt * p.2)).length =
        change.length := List.length_set change _ _
    have hrec := ih (change.set p.1 (change.getD p.1 0 + amt * p.2))
      (by rw [hlen]; exact hj)
      (fun q hq => by rw [hlen]; exact hl q (List.mem_cons_of_mem p hq))
    rw [hrec]
    by_cases hpj : p.1 = j
    · have hset : (change.set p.1 (change.getD p.1 0 + amt * p.2)).getD j 0 =
          change.getD p.1 0 + amt * p.2 := by
        rw [hpj] at *
        exact getD_set_self change j _ hj
      have hfil : (p :: l).filter (fun p => p.1 == j) =
          p :: l.filter (fun p => p.1 == j) := by
        rw [List.filter_cons, if_pos (by simp [hpj])]
      rw [hset, hfil, List.map_cons, List.sum_cons, hpj]
      ring
    · have hset : (change.set p.1 (change.getD p.1 0 + amt * p.2)).getD j 0 =
          change.getD j 0 := getD_set_ne change p.1 j _ hpj
      have hfil : (p :: l).filter (fun p => p.1 == j) =
          l.filter (fun p => p.1 == j) := by
        rw [List.filter_cons, if_neg (by simp [hpj])]
      rw [hset, hfil]

theorem reactionStep_length (s : ℚ) (concs change : List ℚ) (r : Reaction) :
    (reactionStep s concs change r).length = change.length := by
  rw [reactionStep, accumulate_length, accumulate_length]

/-- Entry `j` of one reaction's update of the delta vector: the old entry
plus the reaction's spec-side contribution at `j`. -/
theorem reactionStep_getD (s : ℚ) (concs change : List ℚ) (r : Reaction)
    (j : ℕ) (hj : j < change.length)
    (hR : ∀ i ∈ r.reactantIndices, i < change.length)
    (hP : ∀ i ∈ r.productIndices, i < change.length) :
    (reactionStep s concs change r).getD j 0 =
      change.getD j 0 + specContrib s concs j r := by
  rw [reactionStep]
  have hinnerlen :
      List.length (accumulate change (r.reactantIndices.zip r.reactantStoich)
        (foldSide concs (r.productIndices.zip r.productExp) (s * r.kb) -
          foldSide concs (r.reactantIndices.zip r.reactantExp) (s * r.kf))) =
        change.length :=
    accumulate_length _ _ _
  rw [accumulate_getD _ _ _ j (by rw [hinnerlen]; exact hj)
      (fun q hq => by
        rw [hinnerlen]; exact hP q.1 (List.of_mem_zip hq).1),
    accumulate_getD _ _ _ j hj
      (fun q hq => hR q.1 (List.of_mem_zip hq).1)]
  have hf : foldSide concs (r.reactantIndices.zip r.reactantExp) (s * r.kf) =
      forwardExtent s concs r := by
    rw [foldSide_closed, forwardExtent]
  have hb : foldSide concs (r.productIndices.zip r.productExp) (s * r.kb) =
      backwardExtent s concs r := by
    rw [foldSide_closed, backwardExtent]
  rw [hf, hb, specContrib]
  ring

theorem ccc_foldl_length (s : ℚ) (concs : List ℚ) (rs : List Reaction) :
    ∀ change : List ℚ, (rs.foldl (reactionStep s concs) change).length =
      change.length := by
  induction rs with
  | nil => intro change; rfl
  | cons r rs ih =>
    intro change
    rw [List.foldl_cons, ih, reactionStep_length]

/-- The delta vector has one entry per compound. -/
theorem calculate_concentration_change_length (s : ℚ) (rs : List Reaction)
    (concs : List ℚ) :
    (calculate_concentration_change s rs concs).length = concs.length := by
  rw [calculate_concentration_change, ccc_foldl_length,
    List.length_replicate]

theorem ccc_foldl_getD (s : ℚ) (concs : List ℚ) (j : ℕ)
    (hj : j < concs.length) :
    ∀ (rs : List Reaction) (change : List ℚ), change.length = concs.length →
      (∀ r ∈ rs, (∀ i ∈ r.reactantIndices, i < concs.length) ∧
        (∀ i ∈ r.productIndices, i < concs.length)) →
      (rs.foldl (reactionStep s concs) change).getD j 0 =
        change.getD j 0 + (rs.map (specContrib s concs j)).sum := by
  intro rs
  induction rs with
  | nil =>
    intro change _ _
    rw [List.foldl_nil, List.map_nil, List.sum_nil, add_zero]
  | cons r rs ih =>
    intro change hlen hv
    rw [List.foldl_cons,
      ih (reactionStep s concs change r)
        (by rw [reactionStep_length]; exact hlen)
        (fun q hq => hv q (List.mem_cons_of_mem r hq)),
      reactionStep_getD s concs change r j (by rw [hlen]; exact hj)
        (fun i hi => by rw [hlen]; exact (hv r (List.mem_cons_self r rs)).1 i hi)
        (fun i hi => by rw [hlen]; exact (hv r (List.mem_cons_self r rs)).2 i hi),
      List.map_cons, List.sum_cons]
    ring

/-- C1: for every network whose reactant and product indices are valid, the
step-delta computation returns a vector of length `compound_count` whose
entry `j` is the spec-side delta: the sum over all reactions of
`(backward_extent − forward_extent) ×` reactant stoichiometry at `j` plus
`(forward_extent − backward_extent) ×` product stoichiometry at `j`, where
the extents are `step_size × rate constant × Π concentration ^ exponent`
(with the zero-base/negative-exponent guard of §4.2). -/
theorem delta_matches_spec (s : ℚ) (rs : List Reaction) (concs : List ℚ)
    (hv : ∀ r ∈ rs, (∀ i ∈ r.reactantIndices, i < concs.length) ∧
      (∀ i ∈ r.productIndices, i < concs.length)) :
    (calculate_concentration_change s rs concs).length = concs.length ∧
      ∀ j, j < concs.length →
        (calculate_concentration_change s rs concs).getD j 0 =
          specDelta s rs concs j := by
  refine ⟨calculate_concentration_change_length s rs concs, fun j hj => ?_⟩
  have hrep : (List.replicate concs.length (0 : ℚ)).getD j 0 = 0 := by
    rw [List.getD_eq_getElem?_getD, List.getElem?_replicate, if_pos hj]
    rfl
  rw [calculate_concentration_change, specDelta,
    ccc_foldl_getD s concs j hj rs (List.replicate concs.length 0)
      (List.length_replicate concs.length 0) hv, hrep, zero_add]

/-- Witness for C1 at the concrete reversible reaction `2A ⇌ B` with rate
exponents `1`, step `1` and concentrations `[2, 3]`. -/
theorem delta_matches_spec_witness :
    (calculate_concentration_change 1 [rxnW] [2, 3]).getD 0 0 =
      specDelta 1 [rxnW] [2, 3] 0 :=
  (delta_matches_spec 1 [rxnW] [2, 3]
    (by intro r hr; rw [List.mem_singleton] at hr; subst hr
        constructor <;> simp [rxnW])).2 0 (by norm_num)

/-! ### Lemmas about the per-compound update loop -/

theorem applyDelta_nil (p : String) (ds : List ℚ) :
    applyDelta p [] ds = ([], false) :=
  rfl

theorem applyDelta_nil_delta (p : String) (c : ℚ) (cs : List ℚ) :
    applyDelta p (c :: cs) [] = (c :: cs, false) :=
  rfl

theorem applyDelta_cons (p : String) (c d : ℚ) (cs ds : List ℚ) :
    applyDelta p (c :: cs) (d :: ds) =
      if c + d > 0 then
        ((c + d) :: (applyDelta p cs ds).1, (applyDelta p cs ds).2)
      else if p = "DoNotChange" then
        (c :: (applyDelta p cs ds).1, (applyDelta p cs ds).2)
      else if p = "GoNegetive" then
        ((c + d) :: (applyDelta p cs ds).1, (applyDelta p cs ds).2)
      else if p = "SetToZero" then
        ((0 : ℚ) :: (applyDelta p cs ds).1, (applyDelta p cs ds).2)
      else (c :: cs, true) :=
  rfl

/-- With a recognized policy the per-compound update never raises. -/
theorem applyDelta_recognized_ok (p : String) (hp : recognizedPolicy p) :
    ∀ concs delta : List ℚ, (applyDelta p concs delta).2 = false := by
  intro concs
  induction concs with
  | nil => intro delta; rfl
  | cons c cs ih =>
    intro delta
    cases delta with
    | nil => rfl
    | cons d ds =>
      rw [applyDelta_cons]
      rcases hp with h | h | h <;> subst h <;>
        split <;> simp only [ih ds] <;> rfl

/-- When every candidate is strictly positive, the per-compound update takes
the first branch everywhere, so the policy string is never consulted. -/
theorem applyDelta_policy_irrelevant (concs delta : List ℚ)
    (h : ∀ pr ∈ concs.zip delta, 0 < pr.1 + pr.2) (p q : String) :
    applyDelta p concs delta = applyDelta q concs delta := by
  induction concs generalizing delta with
  | nil => rfl
  | cons c cs ih =>
    cases delta with
    | nil => rfl
    | cons d ds =>
      have hcd : 0 < c + d := h (c, d)
        (by rw [List.zip_cons_cons]; exact List.mem_cons_self _ _)
      rw [applyDelta_cons, applyDelta_cons, if_pos hcd, if_pos hcd,
        ih ds (fun pr hpr => h pr
          (by rw [List.zip_cons_cons]; exact List.mem_cons_of_mem _ hpr))]

/-- C9: in any single tick in which `candidate = concentrations[j] +
delta[j]` is strictly positive for every compound, the three negative
policies produce identical resulting concentration vectors (and identical
raise flags): the policy affects the result only at the boundary. -/
theorem policy_equivalence (concs delta : List ℚ)
    (h : ∀ pr ∈ concs.zip delta, 0 < pr.1 + pr.2) :
    applyDelta "SetToZero" concs delta = applyDelta "DoNotChange" concs delta
    ∧ applyDelta "DoNotChange" concs delta =
        applyDelta "GoNegetive" concs delta :=
  ⟨applyDelta_policy_irrelevant concs delta h "SetToZero" "DoNotChange",
   applyDelta_policy_irrelevant concs delta h "DoNotChange" "GoNegetive"⟩

/-- Witness for C9: concentrations `[1, 2]`, deltas `[1, -1]`, all
candidates strictly positive. -/
theorem policy_equivalence_witness :
    applyDelta "SetToZero" [1, 2] [1, -1] =
      applyDelta "DoNotChange" [1, 2] [1, -1] ∧
    applyDelta "DoNotChange" [1, 2] [1, -1] =
      applyDelta "GoNegetive" [1, 2] [1, -1] :=
  policy_equivalence [1, 2] [1, -1] (by
    intro pr hpr
    simp only [List.zip_cons_cons, List.zip_nil_left, List.mem_cons,
      List.not_mem_nil, or_false] at hpr
    rcases hpr with h | h <;> subst h <;> norm_num)

/-- C10: under the `SetToZero` (ClampToZero) policy the per-tick update of
the bounded run leaves every entry of the concentration vector nonnegative
(each entry is either a strictly positive candidate or has been set to
`0`), regardless of the signs of the initial concentrations and deltas; as
it holds unconditionally, the invariant is preserved by every subsequent
step. -/
theorem applyDelta_setToZero_nonneg :
    ∀ (concs delta : List ℚ), concs.length = delta.length →
      ∀ x ∈ (applyDelta "SetToZero" concs delta).1, 0 ≤ x := by
  intro concs
  induction concs with
  | nil =>
    intro delta _ x hx
    rw [applyDelta_nil] at hx
    exact absurd hx (List.not_mem_nil x)
  | cons c cs ih =>
    intro delta hlen x hx
    cases delta with
    | nil => exact absurd hlen (by simp)
    | cons d ds =>
      have hlen' : cs.length = ds.length := by
        rw [List.length_cons, List.length_cons] at hlen
        exact Nat.succ_injective hlen
      rw [applyDelta_cons, if_neg (by decide : ¬"SetToZero" = "DoNotChange"),
        if_neg (by decide : ¬"SetToZero" = "GoNegetive"),
        if_pos (rfl : "SetToZero" = "SetToZero")] at hx
      by_cases hcd : c + d > 0
      · rw [if_pos hcd] at hx
        rcases List.mem_cons.mp hx with h | h
        · rw [h]; exact le_of_lt hcd
        · exact ih ds hlen' x h
      · rw [if_neg hcd] at hx
        rcases List.mem_cons.mp hx with h | h
        · rw [h]
        · exact ih ds hlen' x h

/-- C10: under the `SetToZero` (ClampToZero) policy the per-tick update of
the bounded run leaves every entry of the concentration vector nonnegative
(each entry is either a strictly positive candidate or has been set to
`0`), regardless of the signs of the current concentrations and of the
computed deltas; as this holds for every input vector it is an invariant
preserved by every subsequent step. -/
theorem setToZero_tick_nonneg (s : ℚ) (rs : List Reaction) (concs : List ℚ) :
    ∀ x ∈ tick s rs "SetToZero" concs, 0 ≤ x := by
  rw [tick]
  exact applyDelta_setToZero_nonneg concs
    (calculate_concentration_change s rs concs)
    (calculate_concentration_change_length s rs concs).symm

/-- Witness for C10 at a negative starting concentration: after one
`SetToZero` tick of the empty network, the entry clamped to `0` is
nonnegative. -/
theorem setToZero_tick_nonneg_witness :
    (0 : ℚ) ∈ tick 1 [] "SetToZero" [-1] ∧
      ∀ x ∈ tick 1 [] "SetToZero" [-1], 0 ≤ x :=
  ⟨by
    norm_num [tick, calculate_concentration_change, applyDelta,
      List.replicate]
    simp,
   setToZero_tick_nonneg 1 [] [-1]⟩

/-- With an unrecognized policy, the per-compound update raises exactly
when it meets a candidate that is not strictly positive. -/
theorem applyDelta_invalid_iff (p : String)
    (hp : ¬p = "DoNotChange" ∧ ¬p = "GoNegetive" ∧ ¬p = "SetToZero") :
    ∀ concs delta : List ℚ,
      (applyDelta p concs delta).2 = true ↔
        ∃ pr ∈ concs.zip delta, pr.1 + pr.2 ≤ 0 := by
  intro concs
  induction concs with
  | nil =>
    intro delta
    rw [applyDelta_nil]
    simp
  | cons c cs ih =>
    intro delta
    cases delta with
    | nil =>
      rw [applyDelta_nil_delta]
      simp
    | cons d ds =>
      rw [applyDelta_cons, if_neg hp.1, if_neg hp.2.1, if_neg hp.2.2]
      by_cases hcd : c + d > 0
      · rw [if_pos hcd]
        constructor
        · intro h
          obtain ⟨pr, hpr, hle⟩ := (ih ds).mp h
          have hmem : pr ∈ (c :: cs).zip (d :: ds) := by
            rw [List.zip_cons_cons]
            exact List.mem_cons_of_mem _ hpr
          exact ⟨pr, hmem, hle⟩
        · intro ⟨pr, hpr, hle⟩
          rw [List.zip_cons_cons] at hpr
          rcases List.mem_cons.mp hpr with h | h
          · subst h
            exact absurd hle (not_le.mpr hcd)
          · exact (ih ds).mpr ⟨pr, h, hle⟩
      · rw [if_neg hcd]
        constructor
        · intro _
          have hmem : (c, d) ∈ (c :: cs).zip (d :: ds) := by
            rw [List.zip_cons_cons]
            exact List.mem_cons_self _ _
          exact ⟨(c, d), hmem, not_lt.mp hcd⟩
        · intro _
          rfl

/-! ### Lemmas about the time-stepping loop -/

theorem loopRun_zero (s : ℚ) (rs : List Reaction) (p : String)
    (cps : List ℚ) (t : ℚ) (concs : List ℚ) (rows : List Row) :
    loopRun s rs p cps 0 t concs rows = (concs, rows, false) :=
  rfl

theorem loopRun_succ (s : ℚ) (rs : List Reaction) (p : String)
    (cps : List ℚ) (n : ℕ) (t : ℚ) (concs : List ℚ) (rows : List Row) :
    loopRun s rs p cps (n + 1) t concs rows =
      if (applyDelta p concs (calculate_concentration_change s rs concs)).2
      then ((applyDelta p concs
          (calculate_concentration_change s rs concs)).1, rows, true)
      else loopRun s rs p cps n (t + s)
        (applyDelta p concs (calculate_concentration_change s rs concs)).1
        (rows ++ recordedAt cps s t
          (applyDelta p concs
            (calculate_concentration_change s rs concs)).1) :=
  rfl

theorem recBlock_zero (s : ℚ) (rs : List Reaction) (p : String)
    (cps : List ℚ) (t : ℚ) (concs : List ℚ) :
    recBlock s rs p cps 0 t concs = [] :=
  rfl

theorem recBlock_succ (s : ℚ) (rs : List Reaction) (p : String)
    (cps : List ℚ) (n : ℕ) (t : ℚ) (concs : List ℚ) :
    recBlock s rs p cps (n + 1) t concs =
      recordedAt cps s t (tick s rs p concs) ++
        recBlock s rs p cps n (t + s) (tick s rs p concs) :=
  rfl

/-- With a recognized policy the loop never aborts: it iterates the per-tick
update `n` times, advancing the clock by the step size each iteration and
accumulating the per-iteration checkpoint blocks in order. -/
theorem loopRun_recognized (s : ℚ) (rs : List Reaction) (p : String)
    (cps : List ℚ) (hp : recognizedPolicy p) :
    ∀ (n : ℕ) (t : ℚ) (concs : List ℚ) (rows : List Row),
      loopRun s rs p cps n t concs rows =
        ((tick s rs p)^[n] concs,
          rows ++ recBlock s rs p cps n t concs, false) := by
  intro n
  induction n with
  | zero =>
    intro t concs rows
    rw [loopRun_zero, recBlock_zero, List.append_nil,
      Function.iterate_zero_apply]
  | succ n ih =>
    intro t concs rows
    rw [loopRun_succ,
      if_neg (by rw [applyDelta_recognized_ok p hp concs]; exact
        Bool.false_ne_true),
      ih (t + s) _ _, recBlock_succ, List.append_assoc]
    have htick : (applyDelta p concs
        (calculate_concentration_change s rs concs)).1 =
        tick s rs p concs := rfl
    rw [htick, Function.iterate_succ_apply]

/-- Structure of a successful bounded run: header row, then the loop's
checkpoint blocks in iteration order starting at `t = 0`, then the
unconditional final `[time, concentrations]` pair; the final concentrations
are `int(time/accuracy + 1)` applications of the per-tick update. -/
theorem calculate_ok (kc : KineticalCalculator) (time : ℚ) (cps : List ℚ)
    (p : String) (hf : kc.fitted = true) (hp : recognizedPolicy p) :
    calculate kc time cps p =
      ({ kc with concentrations := (tick kc.accuracy kc.reactions p)^[(pyInt
          (time / kc.accuracy + 1)).toNat] kc.concentrations },
        Except.ok (Row.header "time" kc.compounds_unicode_formula ::
          (recBlock kc.accuracy kc.reactions p cps
              ((pyInt (time / kc.accuracy + 1)).toNat) 0 kc.concentrations ++
            [Row.snap time ((tick kc.accuracy kc.reactions p)^[(pyInt
              (time / kc.accuracy + 1)).toNat] kc.concentrations)]))) := by
  rw [calculate, if_neg (by simp [hf])]
  simp only [loopRun_recognized kc.accuracy kc.reactions p cps hp _ 0
    kc.concentrations [], List.nil_append]
  rw [if_neg Bool.false_ne_true]
  rfl

/-- Characterization of the rows recorded by `n` loop iterations starting
at time `t`: exactly the checkpoints falling in some iteration's half-open
interval `[t + k·s, t + k·s + s)`, snapshotting the concentrations after
that iteration's update. -/
theorem mem_recBlock (s : ℚ) (rs : List Reaction) (p : String)
    (cps : List ℚ) :
    ∀ (n : ℕ) (t : ℚ) (concs : List ℚ) (c : ℚ) (v : List ℚ),
      Row.snap c v ∈ recBlock s rs p cps n t concs ↔
        ∃ k, k < n ∧ c ∈ cps ∧ t + (k : ℚ) * s ≤ c ∧
          c < t + (k : ℚ) * s + s ∧ v = (tick s rs p)^[k + 1] concs := by
  intro n
  induction n with
  | zero =>
    intro t concs c v
    rw [recBlock_zero]
    simp
  | succ n ih =>
    intro t concs c v
    rw [recBlock_succ, List.mem_append]
    constructor
    · rintro (h | h)
      · rw [recordedAt] at h
        obtain ⟨a, ha, heq⟩ := List.mem_map.mp h
        rw [Row.snap.injEq] at heq
        obtain ⟨hacps, hfa⟩ := List.mem_filter.mp ha
        rw [Bool.and_eq_true, decide_eq_true_eq, decide_eq_true_eq] at hfa
        refine ⟨0, Nat.succ_pos n, ?_, ?_, ?_, ?_⟩
        · rw [← heq.1]; exact hacps
        · rw [Nat.cast_zero, zero_mul, add_zero, ← heq.1]; exact hfa.1
        · rw [Nat.cast_zero, zero_mul, add_zero, ← heq.1]; exact hfa.2
        · rw [Function.iterate_one]; exact heq.2.symm
      · obtain ⟨k, hk, hcps, h1, h2, hv⟩ := (ih (t + s) (tick s rs p concs)
          c v).mp h
        refine ⟨k + 1, Nat.succ_lt_succ hk, hcps, ?_, ?_, ?_⟩
        · push_cast at h1 ⊢; linarith
        · push_cast at h2 ⊢; linarith
        · rw [hv]; exact (Function.iterate_succ_apply _ _ _).symm
    · rintro ⟨k, hk, hcps, h1, h2, hv⟩
      cases k with
      | zero =>
        left
        rw [Nat.cast_zero, zero_mul, add_zero] at h1 h2
        rw [recordedAt]
        refine List.mem_map.mpr ⟨c, List.mem_filter.mpr ⟨hcps, ?_⟩, ?_⟩
        · rw [Bool.and_eq_true, decide_eq_true_eq, decide_eq_true_eq]
          exact ⟨h1, h2⟩
        · rw [Row.snap.injEq]
          exact ⟨rfl, by rw [hv, Function.iterate_one]⟩
      | succ k =>
        right
        refine (ih (t + s) (tick s rs p concs) c v).mpr
          ⟨k, Nat.lt_of_succ_lt_succ hk, hcps, ?_, ?_, ?_⟩
        · push_cast at h1 ⊢; linarith
        · push_cast at h2 ⊢; linarith
        · rw [hv, Function.iterate_succ_apply]

/-- For a nonnegative duration and positive step size, Python's
`int(time/accuracy + 1)` is `⌊time/accuracy⌋ + 1`. -/
theorem pyInt_iterations (d s : ℚ) (hd : 0 ≤ d) (hs : 0 < s) :
    pyInt (d / s + 1) = ⌊d / s⌋ + 1 := by
  have h0 : (0 : ℚ) ≤ d / s := div_nonneg hd (le_of_lt hs)
  rw [pyInt, if_pos (by linarith), Int.floor_add_one]

/-- With a recognized policy and an all-zero delta over nonnegative
concentrations, the per-compound update changes nothing and does not
raise. -/
theorem applyDelta_zero_delta (p : String) (hp : recognizedPolicy p) :
    ∀ concs : List ℚ, (∀ x ∈ concs, 0 ≤ x) →
      applyDelta p concs (List.replicate concs.length 0) = (concs, false) := by
  intro concs
  induction concs with
  | nil => intro _; rfl
  | cons c cs ih =>
    intro hc
    rw [List.length_cons, List.replicate_succ, applyDelta_cons,
      ih (fun x hx => hc x (List.mem_cons_of_mem c hx))]
    have hc0 : 0 ≤ c := hc c (List.mem_cons_self c cs)
    by_cases hpos : c + 0 > 0
    · rw [if_pos hpos, add_zero]
    · have hceq : c = 0 := le_antisymm (by linarith [not_lt.mp hpos]) hc0
      rw [if_neg hpos]
      rcases hp with h | h | h <;> subst h
      · rw [if_neg (by decide : ¬"SetToZero" = "DoNotChange"),
          if_neg (by decide : ¬"SetToZero" = "GoNegetive"),
          if_pos (rfl : "SetToZero" = "SetToZero"), hceq]
      · rw [if_pos (rfl : "DoNotChange" = "DoNotChange")]
      · rw [if_neg (by decide : ¬"GoNegetive" = "DoNotChange"),
          if_pos (rfl : "GoNegetive" = "GoNegetive"), add_zero]

/-- With no reactions the per-tick update fixes every nonnegative
concentration vector. -/
theorem tick_no_reactions (s : ℚ) (p : String) (hp : recognizedPolicy p)
    (concs : List ℚ) (hc : ∀ x ∈ concs, 0 ≤ x) :
    tick s [] p concs = concs := by
  rw [tick]
  have hccc : calculate_concentration_change s [] concs =
      List.replicate concs.length 0 := rfl
  rw [hccc, applyDelta_zero_delta p hp concs hc]

/-- C7: a `calculate` call on a calculator that has not been fitted raises
`NameError` (the spec's `NotBoundError`) and leaves the calculator state
unchanged, for every duration, checkpoint list and policy; in particular a
freshly constructed calculator is unusable for integration. -/
theorem not_fitted_raises (kc : KineticalCalculator) (time : ℚ)
    (cps : List ℚ) (p : String) (h : kc.fitted = false) :
    calculate kc time cps p = (kc, Except.error CalcError.notFitted) := by
  rw [calculate, if_pos h]

/-- Witness for C7: a freshly constructed calculator (`__init__` only, no
`fit`) raises on `calculate`. -/
theorem not_fitted_raises_witness :
    calculate (mkCalculator 1) 5 [] "SetToZero" =
      (mkCalculator 1, Except.error CalcError.notFitted) :=
  not_fitted_raises (mkCalculator 1) 5 [] "SetToZero" rfl

/-! ### Claim theorems about the bounded run -/

/-- C3 counterexample: on a bound (fitted) calculator, a `calculate` call
with the unrecognized policy `"Bogus"` does not raise at all — the run
completes and returns its checkpoint rows — because the policy is only
examined inside the per-compound update loop and only when a candidate
fails the positivity test.  This refutes the claim that the policy is
validated once at call time with an immediate `InvalidArgument`. -/
theorem invalid_policy_not_immediate :
    ¬recognizedPolicy "Bogus" ∧
    calculate kcOne 0 [] "Bogus" =
      (kcOne, Except.ok [Row.header "time" ["A"], Row.snap 0 [1]]) := by
  constructor
  · intro h
    rcases h with h | h | h <;> exact absurd h (by decide)
  · norm_num [calculate, loopRun, applyDelta, calculate_concentration_change,
      recordedAt, pyInt, kcOne, List.replicate]

/-- C3 (amended): an unrecognized `negative_policy` is detected per element
inside the per-compound update loop, not at call time: the update raises
`ValueError` (the spec's `InvalidArgument`) exactly when it meets a
compound whose candidate concentration is not strictly positive; compounds
visited before that point have already been updated when the raise occurs,
and a run whose candidates all stay positive completes without raising. -/
theorem invalid_policy_checked_per_element (p : String)
    (hp : ¬recognizedPolicy p) (concs delta : List ℚ) :
    (applyDelta p concs delta).2 = true ↔
      ∃ pr ∈ concs.zip delta, pr.1 + pr.2 ≤ 0 := by
  have hp3 : ¬p = "DoNotChange" ∧ ¬p = "GoNegetive" ∧ ¬p = "SetToZero" := by
    rw [recognizedPolicy] at hp
    push_neg at hp
    exact ⟨hp.2.1, hp.2.2, hp.1⟩
  exact applyDelta_invalid_iff p hp3 concs delta

/-- Witness for the amended C3: with policy `"Bogus"`, concentrations
`[1, -5]` and deltas `[1, 0]`, the update raises (the second candidate is
`-5 ≤ 0`). -/
theorem invalid_policy_checked_per_element_witness :
    (applyDelta "Bogus" [1, -5] [1, 0]).2 = true :=
  (invalid_policy_checked_per_element "Bogus"
      (by intro h; rcases h with h | h | h <;> exact absurd h (by decide))
      [1, -5] [1, 0]).mpr
    ⟨(-5, 0), by
      rw [List.zip_cons_cons, List.zip_cons_cons]
      exact List.mem_cons_of_mem _ (List.mem_cons_self _ _), by norm_num⟩

/-- C4 counterexample: with duration `0`, step `1` and checkpoint `1/2`,
the checkpoint time `1/2` lies outside `[0, duration) = ∅` yet the loop
records it (its single iteration's interval is `[0, 1)`). -/
theorem checkpoint_outside_duration_recorded :
    ¬((1 : ℚ)/2 < 0) ∧
    calculate kcOne 0 [(1 : ℚ)/2] "SetToZero" =
      (kcOne, Except.ok [Row.header "time" ["A"], Row.snap ((1 : ℚ)/2) [1],
        Row.snap 0 [1]]) := by
  constructor
  · norm_num
  · norm_num [calculate, loopRun, applyDelta, calculate_concentration_change,
      recordedAt, pyInt, kcOne, List.replicate]

/-- C4 (amended): every row the loop records is a checkpoint value `c`
taken together with a copy of the concentrations of the iteration whose
half-open interval `[k·step, k·step + step)` contains `c`; the loop records
exactly the checkpoints inside `[0, N·step)` with
`N = ⌊duration/step⌋ + 1` the iteration count — an interval reaching one
step beyond `duration`, not the claimed `[0, duration)`. -/
theorem checkpoint_bracketing (kc : KineticalCalculator) (d : ℚ)
    (cps : List ℚ) (p : String) (hd : 0 ≤ d) (hs : 0 < kc.accuracy)
    (hf : kc.fitted = true) (hp : recognizedPolicy p) :
    (∀ c v, Row.snap c v ∈ recBlock kc.accuracy kc.reactions p cps
        ((⌊d / kc.accuracy⌋ + 1).toNat) 0 kc.concentrations →
      c ∈ cps ∧ ∃ k, k < (⌊d / kc.accuracy⌋ + 1).toNat ∧
        (k : ℚ) * kc.accuracy ≤ c ∧
        c < (k : ℚ) * kc.accuracy + kc.accuracy ∧
        v = (tick kc.accuracy kc.reactions p)^[k + 1] kc.concentrations) ∧
    (∀ c ∈ cps, 0 ≤ c →
      c < (((⌊d / kc.accuracy⌋ + 1).toNat : ℕ) : ℚ) * kc.accuracy →
      ∃ v, Row.snap c v ∈ recBlock kc.accuracy kc.reactions p cps
        ((⌊d / kc.accuracy⌋ + 1).toNat) 0 kc.concentrations) ∧
    calculate kc d cps p =
      ({ kc with concentrations := (tick kc.accuracy kc.reactions
          p)^[(⌊d / kc.accuracy⌋ + 1).toNat] kc.concentrations },
        Except.ok (Row.header "time" kc.compounds_unicode_formula ::
          (recBlock kc.accuracy kc.reactions p cps
              ((⌊d / kc.accuracy⌋ + 1).toNat) 0 kc.concentrations ++
            [Row.snap d ((tick kc.accuracy kc.reactions
              p)^[(⌊d / kc.accuracy⌋ + 1).toNat] kc.concentrations)]))) := by
  refine ⟨?_, ?_, ?_⟩
  · intro c v hm
    obtain ⟨k, hk, hcps, h1, h2, hv⟩ :=
      (mem_recBlock kc.accuracy kc.reactions p cps _ 0 kc.concentrations
        c v).mp hm
    rw [zero_add] at h1 h2
    exact ⟨hcps, k, hk, h1, h2, hv⟩
  · intro c hcps hc0 hcN
    set s := kc.accuracy with hsdef
    have hkfl : 0 ≤ ⌊c / s⌋ := Int.floor_nonneg.mpr (div_nonneg hc0 hs.le)
    refine ⟨(tick s kc.reactions p)^[(⌊c / s⌋).toNat + 1] kc.concentrations,
      (mem_recBlock s kc.reactions p cps _ 0 kc.concentrations c _).mpr
        ⟨(⌊c / s⌋).toNat, ?_, hcps, ?_, ?_, rfl⟩⟩
    · have hflt : ⌊c / s⌋ < ((⌊d / s⌋ + 1).toNat : ℤ) := by
        apply Int.floor_lt.mpr
        rw [div_lt_iff₀ hs]
        calc c < (((⌊d / s⌋ + 1).toNat : ℕ) : ℚ) * s := hcN
        _ = (((⌊d / s⌋ + 1).toNat : ℤ) : ℚ) * s := by push_cast; ring
      omega
    · rw [zero_add]
      have hcast : ((⌊c / s⌋).toNat : ℚ) = ((⌊c / s⌋ : ℤ) : ℚ) := by
        exact_mod_cast congrArg (fun z : ℤ => (z : ℚ))
          (Int.toNat_of_nonneg hkfl)
      rw [hcast, ← le_div_iff₀ hs]
      exact Int.floor_le (c / s)
    · rw [zero_add]
      have hcast : ((⌊c / s⌋).toNat : ℚ) = ((⌊c / s⌋ : ℤ) : ℚ) := by
        exact_mod_cast congrArg (fun z : ℤ => (z : ℚ))
          (Int.toNat_of_nonneg hkfl)
      rw [hcast]
      have hlt : c / s < (⌊c / s⌋ : ℚ) + 1 := Int.lt_floor_add_one (c / s)
      have h2 : c < ((⌊c / s⌋ : ℚ) + 1) * s := (div_lt_iff₀ hs).mp hlt
      have h3 : ((⌊c / s⌋ : ℚ) + 1) * s = (⌊c / s⌋ : ℚ) * s + s := by ring
      linarith
  · rw [calculate_ok kc d cps p hf hp, pyInt_iterations d kc.accuracy hd hs]

/-- Witness for the amended C4 at duration `0`, step `1`, checkpoint list
`[1/2]`: the checkpoint is recorded even though it exceeds the duration. -/
theorem checkpoint_bracketing_witness :
    ∃ v, Row.snap ((1 : ℚ)/2) v ∈ recBlock kcOne.accuracy kcOne.reactions
      "SetToZero" [(1 : ℚ)/2] ((⌊(0 : ℚ) / kcOne.accuracy⌋ + 1).toNat) 0
      kcOne.concentrations :=
  (checkpoint_bracketing kcOne 0 [(1 : ℚ)/2] "SetToZero" le_rfl
      (by norm_num [kcOne]) rfl (Or.inl rfl)).2.1
    ((1 : ℚ)/2) (List.mem_singleton.mpr rfl) (by norm_num)
    (by norm_num [kcOne])

/-- C5 counterexample: two checkpoints in the same bracketing interval are
returned in `checkpoint_times` list order, here `1/2` before `1/4` — not in
ascending time order as claimed. -/
theorem checkpoints_not_ascending :
    ¬((1 : ℚ)/2 ≤ 1/4) ∧
    calculate kcOne 0 [(1 : ℚ)/2, (1 : ℚ)/4] "SetToZero" =
      (kcOne, Except.ok [Row.header "time" ["A"], Row.snap ((1 : ℚ)/2) [1],
        Row.snap ((1 : ℚ)/4) [1], Row.snap 0 [1]]) := by
  constructor
  · norm_num
  · norm_num [calculate, loopRun, applyDelta, calculate_concentration_change,
      recordedAt, pyInt, kcOne, List.replicate]

/-- C5 (amended): a successful bounded run returns the header pair first,
then the recorded checkpoints in the order their bracketing intervals were
reached — within a single interval in `checkpoint_times` list order, which
need not be ascending — and ends with the final pair
`(duration, concentrations)` appended unconditionally after the loop,
whether or not a checkpoint coincided with the duration. -/
theorem run_structure (kc : KineticalCalculator) (time : ℚ) (cps : List ℚ)
    (p : String) (hf : kc.fitted = true) (hp : recognizedPolicy p) :
    calculate kc time cps p =
      ({ kc with concentrations := (tick kc.accuracy kc.reactions p)^[(pyInt
          (time / kc.accuracy + 1)).toNat] kc.concentrations },
        Except.ok (Row.header "time" kc.compounds_unicode_formula ::
          (recBlock kc.accuracy kc.reactions p cps
              ((pyInt (time / kc.accuracy + 1)).toNat) 0 kc.concentrations ++
            [Row.snap time ((tick kc.accuracy kc.reactions p)^[(pyInt
              (time / kc.accuracy + 1)).toNat] kc.concentrations)]))) :=
  calculate_ok kc time cps p hf hp

/-- Witness for the amended C5 on a concrete fitted calculator. -/
theorem run_structure_witness :
    calculate kcOne 0 [] "SetToZero" =
      ({ kcOne with concentrations :=
          (tick kcOne.accuracy kcOne.reactions "SetToZero")^[(pyInt
            ((0 : ℚ) / kcOne.accuracy + 1)).toNat] kcOne.concentrations },
        Except.ok (Row.header "time" kcOne.compounds_unicode_formula ::
          (recBlock kcOne.accuracy kcOne.reactions "SetToZero" []
              ((pyInt ((0 : ℚ) / kcOne.accuracy + 1)).toNat) 0
              kcOne.concentrations ++
            [Row.snap 0
              ((tick kcOne.accuracy kcOne.reactions "SetToZero")^[(pyInt
                ((0 : ℚ) / kcOne.accuracy + 1)).toNat]
                kcOne.concentrations)]))) :=
  run_structure kcOne 0 [] "SetToZero" rfl (Or.inl rfl)

/-- C6: for duration ≥ 0 and step size > 0, the bounded run executes its
per-step update (delta computation followed by the per-compound
concentration update, i.e. one `tick`) exactly `⌊duration/step⌋ + 1` times
— the `int(time/accuracy + 1)` of the source equals `⌊duration/step⌋ + 1`
and the final concentrations are that many iterations of `tick` — starting
at `t = 0` and advancing `t` by the step after each iteration (the `k`-th
iteration's checkpoint window is `[k·step, k·step + step)`, as `recBlock`
unfolds). -/
theorem iteration_count (kc : KineticalCalculator) (d : ℚ) (cps : List ℚ)
    (p : String) (hd : 0 ≤ d) (hs : 0 < kc.accuracy) (hf : kc.fitted = true)
    (hp : recognizedPolicy p) :
    pyInt (d / kc.accuracy + 1) = ⌊d / kc.accuracy⌋ + 1 ∧
    calculate kc d cps p =
      ({ kc with concentrations := (tick kc.accuracy kc.reactions
          p)^[(⌊d / kc.accuracy⌋ + 1).toNat] kc.concentrations },
        Except.ok (Row.header "time" kc.compounds_unicode_formula ::
          (recBlock kc.accuracy kc.reactions p cps
              ((⌊d / kc.accuracy⌋ + 1).toNat) 0 kc.concentrations ++
            [Row.snap d ((tick kc.accuracy kc.reactions
              p)^[(⌊d / kc.accuracy⌋ + 1).toNat] kc.concentrations)]))) := by
  have hN := pyInt_iterations d kc.accuracy hd hs
  refine ⟨hN, ?_⟩
  rw [calculate_ok kc d cps p hf hp, hN]

/-- Witness for C6 at duration `0`, step `1`: one iteration. -/
theorem iteration_count_witness :
    pyInt ((0 : ℚ) / kcOne.accuracy + 1) = ⌊(0 : ℚ) / kcOne.accuracy⌋ + 1 ∧
    calculate kcOne 0 [] "SetToZero" =
      ({ kcOne with concentrations :=
          (tick kcOne.accuracy kcOne.reactions
            "SetToZero")^[(⌊(0 : ℚ) / kcOne.accuracy⌋ + 1).toNat] kcOne.concentrations },
        Except.ok (Row.header "time" kcOne.compounds_unicode_formula ::
          (recBlock kcOne.accuracy kcOne.reactions "SetToZero" []
              ((⌊(0 : ℚ) / kcOne.accuracy⌋ + 1).toNat) 0
              kcOne.concentrations ++
            [Row.snap 0
              ((tick kcOne.accuracy kcOne.reactions
                "SetToZero")^[(⌊(0 : ℚ) / kcOne.accuracy⌋ + 1).toNat]
                kcOne.concentrations)]))) :=
  iteration_count kcOne 0 [] "SetToZero" le_rfl (by norm_num [kcOne]) rfl
    (Or.inl rfl)

/-- C8 counterexample: a bound network with no reactions but a negative
initial concentration is not conserved under `SetToZero` — the first tick
clamps `-1` to `0`, so the final pair differs from the initial vector. -/
theorem negative_initial_not_conserved :
    calculate kcNegOne 0 [] "SetToZero" =
      ({ kcNegOne with concentrations := [0] },
        Except.ok [Row.header "time" ["A"], Row.snap 0 [0]]) ∧
    kcNegOne.concentrations = [-1] ∧ ¬(([0] : List ℚ) = [-1]) := by
  refine ⟨?_, rfl, by norm_num⟩
  norm_num [calculate, loopRun, applyDelta, calculate_concentration_change,
    recordedAt, pyInt, kcNegOne, List.replicate]
  simp

/-- C8 (amended): for a bound network with `reaction_count = 0` and all
initial concentrations nonnegative, a run with any duration, checkpoint
times and recognized policy leaves the calculator state unchanged and every
recorded snapshot — checkpoints and the final pair alike — equal to the
initial concentration vector.  (Nonnegativity is needed: `SetToZero` clamps
a negative initial entry to `0`, see the counterexample.) -/
theorem no_reactions_conserve (kc : KineticalCalculator) (d : ℚ)
    (cps : List ℚ) (p : String) (hf : kc.fitted = true)
    (hrs : kc.reactions = []) (hp : recognizedPolicy p)
    (hc : ∀ x ∈ kc.concentrations, 0 ≤ x) :
    (calculate kc d cps p).1 = kc ∧
    ∃ rows, (calculate kc d cps p).2 = Except.ok rows ∧
      ∀ c v, Row.snap c v ∈ rows → v = kc.concentrations := by
  have hfix : tick kc.accuracy kc.reactions p kc.concentrations =
      kc.concentrations := by
    rw [hrs]
    exact tick_no_reactions kc.accuracy p hp kc.concentrations hc
  have hiter : ∀ n, (tick kc.accuracy kc.reactions p)^[n]
      kc.concentrations = kc.concentrations :=
    fun n => Function.iterate_fixed hfix n
  rw [calculate_ok kc d cps p hf hp]
  constructor
  · rw [hiter]
  · refine ⟨_, rfl, ?_⟩
    intro c v hv
    rcases List.mem_cons.mp hv with h | h
    · exact absurd h (by intro h; exact Row.noConfusion h)
    · rcases List.mem_append.mp h with h | h
      · obtain ⟨k, _, _, _, _, hvk⟩ :=
          (mem_recBlock kc.accuracy kc.reactions p cps _ 0
            kc.concentrations c v).mp h
        rw [hvk, hiter]
      · rw [List.mem_singleton] at h
        have := (Row.snap.injEq _ _ _ _).mp h
        rw [this.2, hiter]

/-- Witness for the amended C8: no reactions, nonnegative concentration
`[1]`, duration `5`, policy `DoNotChange`. -/
theorem no_reactions_conserve_witness :
    (calculate kcOne 5 [] "DoNotChange").1 = kcOne ∧
    ∃ rows, (calculate kcOne 5 [] "DoNotChange").2 = Except.ok rows ∧
      ∀ c v, Row.snap c v ∈ rows → v = kcOne.concentrations :=
  no_reactions_conserve kcOne 5 [] "DoNotChange" rfl rfl
    (Or.inr (Or.inl rfl))
    (by intro x hx
        have : x = 1 := by simpa [kcOne] using hx
        rw [this]
        norm_num)

end ChemCalc
